import Mathlib

/-!
Shallow embedding of the Kalshi Discord bot repository (src/bot.py and
src/vol_feature.py): the per-instrument price-history store and its delta
query, the two market-snapshot fallback chains, the multi-base HTTP fetch
loop, the per-guild watchlist store, the periodic alert sweep, message
chunking, and ticker extraction from free text.  Python floats holding
prices are embedded as exact rationals, integer cents and epoch-second
timestamps as integers, dictionaries as insertion-ordered association
lists, and fallible fetches as Except values.
-/

/-- Python round with a single argument: round half to even, producing an
integer.  Used wherever the source calls round(x). -/
def pyRound (q : ℚ) : ℤ :=
  let f : ℤ := ⌊q⌋
  let frac : ℚ := q - (f : ℚ)
  if frac < 1/2 then f
  else if 1/2 < frac then f + 1
  else if f % 2 = 0 then f else f + 1

/-- Python round(x, ndigits): round half to even at ndigits decimal
digits. -/
def pyRoundTo (ndigits : ℕ) (q : ℚ) : ℚ :=
  ((pyRound (q * (10 : ℚ) ^ ndigits) : ℤ) : ℚ) / (10 : ℚ) ^ ndigits

/-- Python str.upper restricted to ASCII letters, matching the tickers and
guild keys manipulated by the bot. -/
def pyUpper (s : String) : String := String.mk (s.data.map Char.toUpper)

/-- The whitespace characters stripped by Python str.strip. -/
def pyIsSpace (c : Char) : Bool :=
  c == ' ' || c == '\t' || c == '\n' || c == '\r' || c == '\x0b' || c == '\x0c'

/-- Python str.strip: drop whitespace from both ends. -/
def pyStrip (s : String) : String :=
  String.mk (((s.data.dropWhile pyIsSpace).reverse.dropWhile pyIsSpace).reverse)

/-- One entry of a per-instrument price history: epoch-second timestamp and
YES price in [0,1].  Source: the ts/yes records appended by
vol_feature.py's recorder and the [ts, yes] rows kept by bot.py. -/
structure Sample where
  ts : ℤ
  yes : ℚ
deriving DecidableEq

/-- Resolution of the optional ts argument of vol_feature.py's recorder,
mirroring the Python expression ts or int(time.time()): a missing or zero
timestamp is replaced by the current time. -/
def resolveTs (tsArg : Option ℤ) (now : ℤ) : ℤ :=
  match tsArg with
  | some t => if t = 0 then now else t
  | none => now

/-- vol_feature.py's snapshot recorder (named with a leading underscore in
the source): a missing price is a no-op; otherwise append the sample and
keep only the last 500 entries (Python series[-500:]). -/
def record_snapshot (series : List Sample) (now : ℤ) (tsArg : Option ℤ)
    (yes_est : Option ℚ) : List Sample :=
  match yes_est with
  | none => series
  | some y =>
    let withNew := series ++ [(⟨resolveTs tsArg now, y⟩ : Sample)]
    withNew.drop (withNew.length - 500)

/-- bot.py record_price: a missing price is a no-op; otherwise append the
sample at the current time and keep only rows whose timestamp is at or
after now minus 72 hours. -/
def record_price (arr : List Sample) (now : ℤ) (yes_price : Option ℚ) :
    List Sample :=
  match yes_price with
  | none => arr
  | some y =>
    (arr ++ [(⟨now, y⟩ : Sample)]).filter (fun row => decide (now - 72 * 3600 ≤ row.ts))

/-- vol_feature.py's delta query (named with a leading underscore in the
source).  It filters the series to the points whose timestamps are at most
now and at least now - minutes*60, takes the first such point in series
order (falling back to the first sample of the whole series when the
filter is empty), compares it with the last sample, and reports the
rounded cent delta, both prices in rounded cents, and the elapsed minutes
between the two samples clamped below at 1.  Python int() on the
nonnegative quotient is truncation toward zero, embedded as Int.tdiv.  An
empty series yields none, the quadruple of Nones in the source. -/
def delta_over_minutes (series : List Sample) (now minutes : ℤ) :
    Option (ℤ × ℤ × ℤ × ℤ) :=
  match series with
  | [] => none
  | s0 :: rest =>
    let cutoff := now - minutes * 60
    let older_points := (s0 :: rest).filter
      (fun p => decide (p.ts ≤ now) && decide (cutoff ≤ p.ts))
    let last := rest.getLastD s0
    match older_points with
    | [] =>
      some (pyRound ((last.yes - s0.yes) * 100),
            pyRound (s0.yes * 100),
            pyRound (last.yes * 100),
            max 1 (Int.tdiv (last.ts - s0.ts) 60))
    | f :: _ =>
      some (pyRound ((last.yes - f.yes) * 100),
            pyRound (f.yes * 100),
            pyRound (last.yes * 100),
            max 1 (Int.tdiv (last.ts - f.ts) 60))

/-- The delta computation exactly as claim C1 words it: scan the series
from the most recent sample backward for the first sample whose timestamp
is at or before now - minutes*60; if found, compare it with the latest
sample and report the actual elapsed window; otherwise fall back to
comparing the very first and very last samples.  This follows the claim's
words, not the source, and is compared against delta_over_minutes. -/
def deltaClaimedSpec (series : List Sample) (now minutes : ℤ) :
    Option (ℤ × ℤ × ℤ × ℤ) :=
  match series with
  | [] => none
  | s0 :: rest =>
    let cutoff := now - minutes * 60
    let last := rest.getLastD s0
    match (s0 :: rest).reverse.find? (fun p => decide (p.ts ≤ cutoff)) with
    | some found =>
      some (pyRound ((last.yes - found.yes) * 100),
            pyRound (found.yes * 100),
            pyRound (last.yes * 100),
            Int.tdiv (last.ts - found.ts) 60)
    | none =>
      some (pyRound ((last.yes - s0.yes) * 100),
            pyRound (s0.yes * 100),
            pyRound (last.yes * 100),
            Int.tdiv (last.ts - s0.ts) 60)

/-- The amended C1 statement as a standalone definition: the earliest
sample inside the window [now - minutes*60, now] (found with find? rather
than the source's filter), defaulting to the head of the series, compared
against the last sample, with the elapsed minutes clamped below at 1. -/
def deltaAmendedSpec (series : List Sample) (now minutes : ℤ) :
    Option (ℤ × ℤ × ℤ × ℤ) :=
  match series with
  | [] => none
  | s0 :: rest =>
    let cutoff := now - minutes * 60
    let last := rest.getLastD s0
    let first := ((s0 :: rest).find?
      (fun p => decide (p.ts ≤ now) && decide (cutoff ≤ p.ts))).getD s0
    some (pyRound ((last.yes - first.yes) * 100),
          pyRound (first.yes * 100),
          pyRound (last.yes * 100),
          max 1 (Int.tdiv (last.ts - first.ts) 60))

/-- The per-instrument detail record as read by both snapshot functions:
the fields looked up inside the market object of the response, each
possibly missing.  Monetary fields are integer cents. -/
structure MarketInfo where
  status : Option String
  yes_ask : Option ℤ
  yes_bid : Option ℤ
  last_price : Option ℤ
  volume : Option ℤ
deriving DecidableEq

/-- An order-book response: the yes and no sides, each a list of price
levels whose price field may be missing. -/
structure Orderbook where
  yes : List (Option ℤ)
  no : List (Option ℤ)
deriving DecidableEq

/-- The quintuple returned by bot.py market_snapshot. -/
structure BotSnap where
  yes_price : Option ℚ
  no_price : Option ℚ
  last_price : Option ℤ
  volume : ℤ
  status : String
deriving DecidableEq

/-- bot.py's order-book fallback: the minimum of the yes-side levels with
a missing price defaulting to 100, or none when the side is empty. -/
def bot_best_ask (yside : List (Option ℤ)) : Option ℤ :=
  match yside with
  | [] => none
  | l :: ls => some ((ls.map (fun level => level.getD 100)).foldl min (l.getD 100))

/-- bot.py market_snapshot.  When the detail fetch succeeds: a
closed/expired/settled status short-circuits with every price absent and
volume still 0; otherwise the yes price comes from yes_ask, then yes_bid,
then last_price, each divided by 100, and the no price is
round(1 - yes, 4).  When the detail fetch raises, the order book is
consulted instead: the cheapest yes-side ask divided by 100, with no price
1 - yes, and no order-book data (or a failed order-book fetch) leaves
every price absent.  The function itself never raises. -/
def bot_market_snapshot (mRes : Except Unit MarketInfo)
    (obRes : Except Unit Orderbook) : BotSnap :=
  match mRes with
  | .ok mi =>
    let status := mi.status.getD "unknown"
    if status = "closed" ∨ status = "expired" ∨ status = "settled" then
      ⟨none, none, none, 0, status⟩
    else
      let volume := mi.volume.getD 0
      let yes_price : Option ℚ :=
        match mi.yes_ask with
        | some a => some ((a : ℚ) / 100)
        | none =>
          match mi.yes_bid with
          | some b => some ((b : ℚ) / 100)
          | none =>
            match mi.last_price with
            | some l => some ((l : ℚ) / 100)
            | none => none
      let no_price := yes_price.map (fun y => pyRoundTo 4 (1 - y))
      ⟨yes_price, no_price, mi.last_price, volume, status⟩
  | .error _ =>
    match obRes with
    | .ok ob =>
      match bot_best_ask ob.yes with
      | some best_ask =>
        ⟨some ((best_ask : ℚ) / 100), some (1 - (best_ask : ℚ) / 100), none, 0, "unknown"⟩
      | none => ⟨none, none, none, 0, "unknown"⟩
    | .error _ => ⟨none, none, none, 0, "unknown"⟩

/-- vol_feature.py best_price_from_book: none for an empty side, otherwise
the maximum level (missing prices defaulting to 0) divided by 100. -/
def best_price_from_book (book_side : List (Option ℤ)) : Option ℚ :=
  match book_side with
  | [] => none
  | l :: ls =>
    some ((((ls.map (fun level => level.getD 0)).foldl max (l.getD 0) : ℤ) : ℚ) / 100)

/-- vol_feature.py yes_from_no: round(1 - no_price, 2) when the no price
is present. -/
def yes_from_no (no_price : Option ℚ) : Option ℚ :=
  match no_price with
  | some n => some (pyRoundTo 2 (1 - n))
  | none => none

/-- The record returned by vol_feature.py market_snapshot. -/
structure VfSnap where
  yes_bid : Option ℚ
  no_bid : Option ℚ
  last_yes : Option ℚ
  volume : Option ℤ
  yes_est : Option ℚ
deriving DecidableEq

/-- vol_feature.py market_snapshot: the order book is fetched first and
both sides are reduced with best_price_from_book; the detail record then
supplies volume and last_price (divided by 100 when it is an integer);
the yes estimate prefers the yes-side book price, then 1 minus the
no-side book price rounded to two digits, then the last price.  Each of
the two fetches degrades independently to missing fields when it raises;
no status field is ever consulted. -/
def vf_market_snapshot (obRes : Except Unit Orderbook)
    (mRes : Except Unit MarketInfo) : VfSnap :=
  let yes_bid := match obRes with
    | .ok ob => best_price_from_book ob.yes
    | .error _ => none
  let no_bid := match obRes with
    | .ok ob => best_price_from_book ob.no
    | .error _ => none
  let vol := match mRes with
    | .ok m => m.volume
    | .error _ => none
  let last_yes := match mRes with
    | .ok m =>
      match m.last_price with
      | some l => some ((l : ℚ) / 100)
      | none => none
    | .error _ => none
  let yes_est := match yes_bid with
    | some y => some y
    | none =>
      match no_bid with
      | some n => yes_from_no (some n)
      | none => last_yes
  ⟨yes_bid, no_bid, last_yes, vol, yes_est⟩

/-- What one configured base produces for a given request: a transport
error, or a response with a status code, a flag telling whether the
Content-Type is application/json, and a parsed body. -/
inductive FetchOutcome where
  | transportError (code : ℕ)
  | response (statusCode : ℕ) (jsonCtype : Bool) (body : ℕ)
deriving DecidableEq

/-- The error raised while attempting one base: the transport error, the
RuntimeError for a non-JSON Content-Type, or the status error raised by
raise_for_status on a non-2xx code. -/
inductive FetchErr where
  | transport (code : ℕ)
  | nonJson (statusCode : ℕ)
  | httpStatus (statusCode : ℕ)
deriving DecidableEq

/-- One iteration of the base loop in kalshi_get, in source order: a
transport error propagates, then the Content-Type is checked, then
raise_for_status fires on a non-2xx code, and only then is the body
returned. -/
def attemptBase : FetchOutcome → Except FetchErr ℕ
  | .transportError c => .error (.transport c)
  | .response s j b =>
    if j = false then .error (.nonJson s)
    else if s < 200 ∨ 300 ≤ s then .error (.httpStatus s)
    else .ok b

/-- The error of one attempt, when it fails. -/
def attemptErr (o : FetchOutcome) : Option FetchErr :=
  match attemptBase o with
  | .error e => some e
  | .ok _ => none

/-- The loop body of kalshi_get over the remaining bases, carrying the
last error seen so far; exhausting the list raises that carried value
(None at the start, as in the source). -/
def kalshiGetAux : Option FetchErr → List FetchOutcome → Except (Option FetchErr) ℕ
  | acc, [] => .error acc
  | acc, o :: rest =>
    match attemptBase o with
    | .ok v => .ok v
    | .error e => kalshiGetAux (some e) rest

/-- kalshi_get of bot.py and vol_feature.py (the two copies are
identical), applied to the per-base outcomes of one request in the order
the bases are configured. -/
def kalshi_get (outcomes : List FetchOutcome) : Except (Option FetchErr) ℕ :=
  kalshiGetAux none outcomes

/-- Lookup in a Python dict modelled as an insertion-ordered association
list. -/
def dictGet {α : Type} (m : List (String × α)) (k : String) : Option α :=
  (m.find? (fun p => decide (p.1 = k))).map Prod.snd

/-- Assignment d[k] = v on a Python dict: an existing key keeps its
position, a new key is appended. -/
def dictSet {α : Type} (m : List (String × α)) (k : String) (v : α) :
    List (String × α) :=
  if m.any (fun p => decide (p.1 = k)) then
    m.map (fun p => if p.1 = k then (k, v) else p)
  else m ++ [(k, v)]

/-- d.pop(k, None) on a Python dict: the removed value, if any, plus the
remaining entries. -/
def dictPop {α : Type} (m : List (String × α)) (k : String) :
    Option α × List (String × α) :=
  (dictGet m k, m.filter (fun p => decide (¬ p.1 = k)))

/-- One guild's watchlist: ticker to optional alert threshold, in
insertion order, mirroring the per-guild dict of {"threshold": ...}
records in bot.py. -/
abbrev WatchMap := List (String × Option ℚ)

/-- The whole watches store: guild id to watchlist. -/
abbrev Watches := List (String × WatchMap)

/-- The storage effect of bot.py watch_cmd: w = watches.get(gid, {});
w[tick] = {"threshold": threshold}; watches[gid] = w. -/
def set_watch (ws : Watches) (gid tick : String) (threshold : Option ℚ) : Watches :=
  let w := (dictGet ws gid).getD []
  dictSet ws gid (dictSet w tick threshold)

/-- The storage effect of bot.py unwatch_cmd: pop the ticker from the
guild's watchlist and report whether an entry (a nonempty config dict,
hence truthy) was removed. -/
def remove_watch (ws : Watches) (gid tick : String) : Bool × Watches :=
  let w := (dictGet ws gid).getD []
  let popped := dictPop w tick
  (popped.1.isSome, dictSet ws gid popped.2)

/-- The sequence rendered by bot.py list_cmd: the guild's watchlist
entries in insertion order. -/
def list_watches (ws : Watches) (gid : String) : WatchMap :=
  (dictGet ws gid).getD []

/-- One iteration of the alert sweep's inner loop in bot.py alert_loop for
a single watch entry, given the resolved yes price for its ticker: an
unresolved price skips the entry; a missing threshold leaves it untouched;
a price at or below the threshold sends one notification and writes None
over the stored threshold.  Returns the updated entry and whether a
notification was sent. -/
def sweepEntry (price : String → Option ℚ) (e : String × Option ℚ) :
    (String × Option ℚ) × Bool :=
  match price e.1, e.2 with
  | none, _ => (e, false)
  | some _, none => (e, false)
  | some y, some t => if y ≤ t then ((e.1, none), true) else (e, false)

/-- One full sweep over a guild's watchlist, in insertion order: the
updated watchlist and the tickers notified during the sweep, in order. -/
def sweepWatches (price : String → Option ℚ) :
    List (String × Option ℚ) → List (String × Option ℚ) × List String
  | [] => ([], [])
  | e :: rest =>
    let r := sweepEntry price e
    let s := sweepWatches price rest
    (r.1 :: s.1, (if r.2 then [e.1] else []) ++ s.2)

/-- Several consecutive sweeps, each observing its own prices, starting
from a watchlist state: all tickers notified across the sweeps. -/
def sweepMany (oracles : List (String → Option ℚ))
    (w : List (String × Option ℚ)) : List String :=
  match oracles with
  | [] => []
  | p :: ps => (sweepWatches p w).2 ++ sweepMany ps (sweepWatches p w).1

/-- Python sep.join over the accumulated chunk, with messages embedded as
character lists. -/
def joinSep (sep : List Char) : List (List Char) → List Char
  | [] => []
  | [l] => l
  | l :: l2 :: rest => l ++ sep ++ joinSep sep (l2 :: rest)

/-- The loop of bot.py chunk_lines, returning the yielded chunks as lists
of entry lines: a line that would push the running joined length over
max_chars flushes the current chunk (when nonempty) and starts a fresh
one. -/
def chunkAux (maxChars : ℕ) (sep : List Char) :
    List (List Char) → List (List Char) → ℕ → List (List (List Char))
  | [], chunk, _ => if chunk.isEmpty then [] else [chunk]
  | line :: rest, chunk, len =>
    let add := (if chunk.isEmpty then [] else sep) ++ line
    if maxChars < len + add.length then
      (if chunk.isEmpty then ([] : List (List (List Char))) else [chunk]) ++
        chunkAux maxChars sep rest [line] line.length
    else
      chunkAux maxChars sep rest (chunk ++ [line]) (len + add.length)

/-- bot.py chunk_lines: the yielded message segments, each the sep-join of
one chunk of consecutive entry lines. -/
def chunk_lines (lines : List (List Char)) (maxChars : ℕ) (sep : List Char) :
    List (List Char) :=
  (chunkAux maxChars sep lines [] 0).map (joinSep sep)

/-- The first character class of bot.py's ticker pattern: A-Z or 0-9
(the search runs over the uppercased text). -/
def tickerHeadChar (c : Char) : Bool :=
  (decide ('A' ≤ c) && decide (c ≤ 'Z')) || (decide ('0' ≤ c) && decide (c ≤ '9'))

/-- The repeated character class of bot.py's ticker pattern: A-Z, 0-9,
hyphen, dot or underscore. -/
def tickerBodyChar (c : Char) : Bool :=
  tickerHeadChar c || c == '-' || c == '.' || c == '_'

/-- A match of bot.py's pattern KX[A-Z0-9][A-Z0-9-._]+ anchored at the
start of the given characters, taking the repeated class greedily. -/
def matchTickerAt (cs : List Char) : Option (List Char) :=
  match cs with
  | 'K' :: 'X' :: c :: rest =>
    if tickerHeadChar c then
      match rest.takeWhile tickerBodyChar with
      | [] => none
      | b :: bs => some ('K' :: 'X' :: c :: b :: bs)
    else none
  | _ => none

/-- Leftmost search of the pattern, as re.search does: try each start
position from the left and return the first full match. -/
def searchTicker : List Char → Option (List Char)
  | [] => none
  | c :: rest =>
    match matchTickerAt (c :: rest) with
    | some m => some m
    | none => searchTicker rest

/-- bot.py extract_ticker: an empty text yields None; otherwise the
pattern is searched in the uppercased text and the matched group is
stripped. -/
def extract_ticker (text : String) : Option String :=
  if text = "" then none
  else (searchTicker (pyUpper text).data).map (fun cs => pyStrip (String.mk cs))

/-- The instrument key computed identically by bot.py watch_cmd and
unwatch_cmd: extract_ticker(ticker) or ticker.upper().strip(). -/
def watch_key (raw : String) : String :=
  (extract_ticker raw).getD (pyStrip (pyUpper raw))

/-- Head-with-default of a filtered list equals find? with the same
default. -/
theorem headD_filter_eq_find_getD {α : Type} (p : α → Bool) (l : List α) (d : α) :
    (l.filter p).headD d = (l.find? p).getD d := by
  induction l with
  | nil => rfl
  | cons a t ih =>
    cases h : p a with
    | true => simp [List.filter_cons, List.find?_cons, h]
    | false => simp [List.filter_cons, List.find?_cons, h, ih]

/-- Rounding the zero rational gives zero. -/
theorem pyRound_zero : pyRound 0 = 0 := by norm_num [pyRound]

/-- C1 counterexample: on the series [(ts 0, 10 cents), (ts 540, 50 cents),
(ts 600, 90 cents)] with now = 600 and a 2-minute lookback, the claim's
backward scan for the first sample at or before now - 120 picks the ts-0
sample and predicts (80, 10, 90, 10), but the code filters for samples
inside the window and takes the earliest of those (ts 540), returning
(40, 50, 90, 1); so the claim's description of the scan is false on the
code. -/
theorem c1_counterexample :
    delta_over_minutes [⟨0, 1/10⟩, ⟨540, 1/2⟩, ⟨600, 9/10⟩] 600 2 = some (40, 50, 90, 1)
    ∧ deltaClaimedSpec [⟨0, 1/10⟩, ⟨540, 1/2⟩, ⟨600, 9/10⟩] 600 2 = some (80, 10, 90, 10)
    ∧ deltaClaimedSpec [⟨0, 1/10⟩, ⟨540, 1/2⟩, ⟨600, 9/10⟩] 600 2 ≠
        delta_over_minutes [⟨0, 1/10⟩, ⟨540, 1/2⟩, ⟨600, 9/10⟩] 600 2 := by
  have htd : Int.tdiv 600 60 = 10 := by decide
  have h1 : delta_over_minutes [⟨0, 1/10⟩, ⟨540, 1/2⟩, ⟨600, 9/10⟩] 600 2
      = some (40, 50, 90, 1) := by
    norm_num [delta_over_minutes, pyRound, List.filter, List.getLastD]
  have h2 : deltaClaimedSpec [⟨0, 1/10⟩, ⟨540, 1/2⟩, ⟨600, 9/10⟩] 600 2
      = some (80, 10, 90, 10) := by
    norm_num [deltaClaimedSpec, pyRound, List.find?, List.getLastD, htd]
  exact ⟨h1, h2, by rw [h1, h2]; decide⟩

/-- C1 (amended): the delta query selects the earliest sample whose
timestamp lies inside [now - minutes*60, now] (not the most recent sample
at or before the window's start), falling back to the series' first sample
when no sample lies inside the window; it compares that sample with the
series' last sample and reports the rounded cent delta, both prices in
cents, and the elapsed minutes between the two samples clamped below at 1;
an empty series gives the no-data result and the query never fails
otherwise. -/
theorem c1_delta_window_amended (series : List Sample) (now minutes : ℤ) :
    delta_over_minutes series now minutes = deltaAmendedSpec series now minutes
    ∧ (delta_over_minutes series now minutes = none ↔ series = []) := by
  constructor
  · cases series with
    | nil => rfl
    | cons s0 rest =>
      have h := headD_filter_eq_find_getD
        (fun p : Sample => decide (p.ts ≤ now) && decide (now - minutes * 60 ≤ p.ts))
        (s0 :: rest) s0
      unfold delta_over_minutes deltaAmendedSpec
      cases hf : (s0 :: rest).filter
          (fun p => decide (p.ts ≤ now) && decide (now - minutes * 60 ≤ p.ts)) with
      | nil =>
        rw [hf] at h
        simp only [hf, List.headD] at h ⊢
        rw [← h]
      | cons f fs =>
        rw [hf] at h
        simp only [hf, List.headD] at h ⊢
        rw [← h]
  · cases series with
    | nil => simp [delta_over_minutes]
    | cons s0 rest =>
      unfold delta_over_minutes
      cases hf : (s0 :: rest).filter
          (fun p => decide (p.ts ≤ now) && decide (now - minutes * 60 ≤ p.ts)) with
      | nil => simp only [hf]; simp
      | cons f fs => simp only [hf]; simp

/-- C7: on a series holding exactly one sample, every delta query returns
a zero-cent delta with from and to both equal to the sample's price in
rounded cents, and the reported window is 1 minute, the clamped value of
the zero elapsed time between the only sample and itself. -/
theorem c7_single_sample_delta (s : Sample) (now minutes : ℤ) :
    delta_over_minutes [s] now minutes =
      some (0, pyRound (s.yes * 100), pyRound (s.yes * 100), 1) := by
  have hmax : max (1 : ℤ) 0 = 1 := max_eq_left (by norm_num)
  unfold delta_over_minutes
  cases hf : List.filter
      (fun p => decide (p.ts ≤ now) && decide (now - minutes * 60 ≤ p.ts)) (s :: []) with
  | nil =>
    simp only [hf, List.getLastD]
    rw [sub_self, zero_mul, pyRound_zero, sub_self, Int.zero_tdiv, hmax]
  | cons f fs =>
    have hm : f ∈ List.filter
        (fun p => decide (p.ts ≤ now) && decide (now - minutes * 60 ≤ p.ts)) (s :: []) := by
      rw [hf]; exact List.mem_cons_self f fs
    have hfs : f = s := by
      have := (List.mem_filter.mp hm).1
      simpa using this
    subst hfs
    simp only [hf, List.getLastD]
    rw [sub_self, zero_mul, pyRound_zero, sub_self, Int.zero_tdiv, hmax]

/-- C3 counterexample: vol_feature.py's market_snapshot performs no status
check, so for an instrument whose detail record reports status closed it
still returns the order-book price (30 cents here) instead of reporting
every price absent as the claim requires of the snapshot operation. -/
theorem c3_counterexample :
    (vf_market_snapshot (Except.ok ⟨[some 30], []⟩)
        (Except.ok ⟨some "closed", none, none, none, some 7⟩)).yes_est = some ((3 : ℚ) / 10)
    ∧ some ((3 : ℚ) / 10) ≠ (none : Option ℚ) := by
  constructor
  · norm_num [vf_market_snapshot, best_price_from_book]
  · simp

/-- C3 (amended): the closed/expired/settled short-circuit holds of
bot.py's market_snapshot — every price field comes back absent and the
result is independent of any order-book data — but vol_feature.py's
market_snapshot has no such check and can report an order-book price for
a closed instrument. -/
theorem c3_closed_short_circuit_amended (mi : MarketInfo) (ob : Except Unit Orderbook)
    (h : mi.status.getD "unknown" = "closed" ∨ mi.status.getD "unknown" = "expired"
      ∨ mi.status.getD "unknown" = "settled") :
    bot_market_snapshot (Except.ok mi) ob =
      ⟨none, none, none, 0, mi.status.getD "unknown"⟩ := by
  simp only [bot_market_snapshot]
  rw [if_pos h]

/-- Witness for the amended C3 theorem at a concrete closed market whose
order book would otherwise price it at 30 cents. -/
theorem c3_closed_short_circuit_witness :
    bot_market_snapshot (Except.ok ⟨some "closed", some 30, none, none, some 7⟩)
      (Except.ok ⟨[some 30], []⟩) = ⟨none, none, none, 0, "closed"⟩ := by
  simpa using c3_closed_short_circuit_amended ⟨some "closed", some 30, none, none, some 7⟩
    (Except.ok ⟨[some 30], []⟩) (Or.inl rfl)

/-- The seed of a left fold by max is at most the fold's value. -/
theorem le_foldl_max_init (p : ℤ) (ps : List ℤ) : p ≤ ps.foldl max p := by
  induction ps generalizing p with
  | nil => exact le_refl p
  | cons b t ih => exact le_trans (le_max_left p b) (ih (max p b))

/-- Every member of the list is at most the value of a left fold by max. -/
theorem le_foldl_max_mem (p a : ℤ) (ps : List ℤ) (h : a ∈ ps) : a ≤ ps.foldl max p := by
  induction ps generalizing p with
  | nil => cases h
  | cons b t ih =>
    rcases List.mem_cons.mp h with rfl | h2
    · exact le_trans (le_max_right p a) (le_foldl_max_init (max p a) t)
    · exact ih (max p b) h2

/-- A left fold by max is the seed or one of the list's members. -/
theorem foldl_max_choice (p : ℤ) (ps : List ℤ) :
    ps.foldl max p = p ∨ ps.foldl max p ∈ ps := by
  induction ps generalizing p with
  | nil => exact Or.inl rfl
  | cons b t ih =>
    rcases ih (max p b) with h | h
    · rcases max_choice p b with hm | hm
      · exact Or.inl (by rw [List.foldl_cons, h, hm])
      · exact Or.inr (by rw [List.foldl_cons, h, hm]; exact List.mem_cons_self b t)
    · exact Or.inr (List.mem_cons_of_mem b h)

/-- The value of a left fold by min is at most the seed. -/
theorem foldl_min_le_init (p : ℤ) (ps : List ℤ) : ps.foldl min p ≤ p := by
  induction ps generalizing p with
  | nil => exact le_refl p
  | cons b t ih => exact le_trans (ih (min p b)) (min_le_left p b)

/-- The value of a left fold by min is at most every member of the list. -/
theorem foldl_min_le_mem (p a : ℤ) (ps : List ℤ) (h : a ∈ ps) : ps.foldl min p ≤ a := by
  induction ps generalizing p with
  | nil => cases h
  | cons b t ih =>
    rcases List.mem_cons.mp h with rfl | h2
    · exact le_trans (foldl_min_le_init (min p a) t) (min_le_right p a)
    · exact ih (min p b) h2

/-- A left fold by min is the seed or one of the list's members. -/
theorem foldl_min_choice (p : ℤ) (ps : List ℤ) :
    ps.foldl min p = p ∨ ps.foldl min p ∈ ps := by
  induction ps generalizing p with
  | nil => exact Or.inl rfl
  | cons b t ih =>
    rcases ih (min p b) with h | h
    · rcases min_choice p b with hm | hm
      · exact Or.inl (by rw [List.foldl_cons, h, hm])
      · exact Or.inr (by rw [List.foldl_cons, h, hm]; exact List.mem_cons_self b t)
    · exact Or.inr (List.mem_cons_of_mem b h)

/-- C5 counterexample: with yes-side order-book levels at 10 and 90 cents,
the claim's "numerically lowest level divided by 100" predicts 0.10, but
vol_feature.py's snapshot takes the numerically highest level and returns
a yes estimate of 0.90. -/
theorem c5_counterexample :
    (vf_market_snapshot (Except.ok ⟨[some 10, some 90], []⟩) (Except.error ())).yes_est
      = some ((9 : ℚ) / 10)
    ∧ ((9 : ℚ) / 10) ≠ (10 : ℚ) / 100 := by
  constructor
  · norm_num [vf_market_snapshot, best_price_from_book]
  · norm_num

/-- C5 (amended): when the order-book fallback produces a yes price, the
two revisions disagree with the claim as follows.  vol_feature.py's
best_price_from_book returns the numerically highest level of the side
divided by 100 (missing level prices defaulting to 0); bot.py's fallback,
reached only when the detail fetch raises, returns the numerically lowest
yes-side level divided by 100 (missing level prices defaulting to 100) and
never derives a price from the no side — an empty yes side leaves the
price absent; in vol_feature.py, when only the no side has data, the yes
estimate is yes_from_no of the no side's best price, that is
round(1 - price, 2). -/
theorem c5_orderbook_price_amended :
    (∀ (l : Option ℤ) (ls : List (Option ℤ)), ∃ m : ℤ,
        best_price_from_book (l :: ls) = some ((m : ℚ) / 100)
        ∧ (∃ lvl ∈ l :: ls, lvl.getD 0 = m)
        ∧ ∀ lvl ∈ l :: ls, lvl.getD 0 ≤ m)
    ∧ (∀ (l : Option ℤ) (ls nside : List (Option ℤ)), ∃ m : ℤ,
        (bot_market_snapshot (Except.error ()) (Except.ok ⟨l :: ls, nside⟩)).yes_price
          = some ((m : ℚ) / 100)
        ∧ (∃ lvl ∈ l :: ls, lvl.getD 100 = m)
        ∧ ∀ lvl ∈ l :: ls, m ≤ lvl.getD 100)
    ∧ (∀ nside : List (Option ℤ),
        (bot_market_snapshot (Except.error ()) (Except.ok ⟨[], nside⟩)).yes_price = none)
    ∧ (∀ (nl : Option ℤ) (nls : List (Option ℤ)) (mRes : Except Unit MarketInfo),
        (vf_market_snapshot (Except.ok ⟨[], nl :: nls⟩) mRes).yes_est
          = yes_from_no (best_price_from_book (nl :: nls))) := by
  refine ⟨?_, ?_, ?_, ?_⟩
  · intro l ls
    refine ⟨_, rfl, ?_, ?_⟩
    · rcases foldl_max_choice (l.getD 0) (ls.map (fun level => level.getD 0)) with h | h
      · exact ⟨l, List.mem_cons_self l ls, h.symm⟩
      · obtain ⟨lvl, hlvl, hval⟩ := List.mem_map.mp h
        exact ⟨lvl, List.mem_cons_of_mem l hlvl, hval⟩
    · intro lvl hlvl
      rcases List.mem_cons.mp hlvl with rfl | h2
      · exact le_foldl_max_init _ _
      · exact le_foldl_max_mem _ _ _ (List.mem_map_of_mem _ h2)
  · intro l ls nside
    refine ⟨_, rfl, ?_, ?_⟩
    · rcases foldl_min_choice (l.getD 100) (ls.map (fun level => level.getD 100)) with h | h
      · exact ⟨l, List.mem_cons_self l ls, h.symm⟩
      · obtain ⟨lvl, hlvl, hval⟩ := List.mem_map.mp h
        exact ⟨lvl, List.mem_cons_of_mem l hlvl, hval⟩
    · intro lvl hlvl
      rcases List.mem_cons.mp hlvl with rfl | h2
      · exact foldl_min_le_init _ _
      · exact foldl_min_le_mem _ _ _ (List.mem_map_of_mem _ h2)
  · intro nside
    rfl
  · intro nl nls mRes
    cases mRes with
    | ok m => rfl
    | error e => rfl

/-- Witness for the amended C5 theorem on singleton order-book sides: the
vol_feature.py best price of a lone 10-cent level is 0.10, and bot.py's
fallback on a lone 10-cent yes level also prices at 0.10. -/
theorem c5_orderbook_price_witness :
    best_price_from_book [some 10] = some ((10 : ℚ) / 100)
    ∧ (bot_market_snapshot (Except.error ()) (Except.ok ⟨[some 10], []⟩)).yes_price
        = some ((10 : ℚ) / 100) := by
  constructor
  · obtain ⟨m, hm, ⟨lvl, hl, hv⟩, _⟩ := c5_orderbook_price_amended.1 (some 10) []
    have hlvl : lvl = some 10 := by simpa using hl
    subst hlvl
    have hm10 : m = 10 := by simpa using hv.symm
    subst hm10
    exact hm
  · obtain ⟨m, hm, ⟨lvl, hl, hv⟩, _⟩ := c5_orderbook_price_amended.2.1 (some 10) [] []
    have hlvl : lvl = some 10 := by simpa using hl
    subst hlvl
    have hm10 : m = 10 := by simpa using hv.symm
    subst hm10
    exact hm

/-- When every remaining base fails, the loop of kalshi_get raises the
error of the last base, whatever error it was already carrying. -/
theorem kalshiGetAux_all_fail (acc : Option FetchErr) (o : FetchOutcome)
    (os : List FetchOutcome) (h : ∀ x ∈ o :: os, (attemptBase x).isOk = false) :
    kalshiGetAux acc (o :: os) =
      Except.error (attemptErr ((o :: os).getLast (List.cons_ne_nil o os))) := by
  induction os generalizing acc o with
  | nil =>
    have h0 := h o (List.mem_cons_self o [])
    cases ha : attemptBase o with
    | ok v => rw [ha] at h0; exact Bool.noConfusion h0
    | error e =>
      show kalshiGetAux acc [o] = _
      unfold kalshiGetAux
      simp only [ha]
      simp [kalshiGetAux, attemptErr, ha, List.getLast]
  | cons o2 os2 ih =>
    have h0 := h o (List.mem_cons_self o (o2 :: os2))
    cases ha : attemptBase o with
    | ok v => rw [ha] at h0; exact Bool.noConfusion h0
    | error e =>
      have hrec := ih (some e) o2 (fun x hx => h x (List.mem_cons_of_mem o hx))
      show kalshiGetAux acc (o :: o2 :: os2) = _
      unfold kalshiGetAux
      simp only [ha]
      rw [hrec, List.getLast_cons (List.cons_ne_nil o2 os2)]

/-- When every base before some base fails and that base succeeds, the
loop of kalshi_get returns that base's body. -/
theorem kalshiGetAux_first_ok (acc : Option FetchErr) (pre post : List FetchOutcome)
    (o : FetchOutcome) (v : ℕ) (hpre : ∀ p ∈ pre, (attemptBase p).isOk = false)
    (ho : attemptBase o = Except.ok v) :
    kalshiGetAux acc (pre ++ o :: post) = Except.ok v := by
  induction pre generalizing acc with
  | nil =>
    show kalshiGetAux acc (o :: post) = _
    unfold kalshiGetAux
    simp only [ho]
  | cons p ps ih =>
    have hp := hpre p (List.mem_cons_self p ps)
    cases ha : attemptBase p with
    | ok w => rw [ha] at hp; exact Bool.noConfusion hp
    | error e =>
      show kalshiGetAux acc (p :: (ps ++ o :: post)) = _
      unfold kalshiGetAux
      simp only [ha]
      exact ih (some e) (fun x hx => hpre x (List.mem_cons_of_mem p hx))

/-- When some remaining base succeeds, the loop of kalshi_get returns a
body rather than raising. -/
theorem kalshiGetAux_ok_of_exists (os : List FetchOutcome)
    (h : ∃ o ∈ os, (attemptBase o).isOk = true) (acc : Option FetchErr) :
    ∃ v, kalshiGetAux acc os = Except.ok v := by
  induction os generalizing acc with
  | nil =>
    obtain ⟨o, ho, _⟩ := h
    cases ho
  | cons a t ih =>
    cases ha : attemptBase a with
    | ok v =>
      refine ⟨v, ?_⟩
      show kalshiGetAux acc (a :: t) = _
      unfold kalshiGetAux
      simp only [ha]
    | error e =>
      have h2 : ∃ o ∈ t, (attemptBase o).isOk = true := by
        obtain ⟨o, ho, hok⟩ := h
        rcases List.mem_cons.mp ho with rfl | hmem
        · rw [ha] at hok; exact Bool.noConfusion hok
        · exact ⟨o, hmem, hok⟩
      obtain ⟨v, hv⟩ := ih h2 (some e)
      refine ⟨v, ?_⟩
      show kalshiGetAux acc (a :: t) = _
      unfold kalshiGetAux
      simp only [ha]
      exact hv

/-- C4: over a nonempty list of configured bases, kalshi_get raises
exactly when every base fails (a transport error, a non-2xx status, or a
non-JSON Content-Type); when all fail it raises the last base's error,
the last error encountered; and the bases are attempted in order — the
first success short-circuits with its body. -/
theorem c4_kalshi_get_fallback (os : List FetchOutcome) (hne : os ≠ []) :
    ((kalshi_get os).isOk = false ↔ ∀ o ∈ os, (attemptBase o).isOk = false)
    ∧ ((∀ o ∈ os, (attemptBase o).isOk = false) →
        kalshi_get os = Except.error (attemptErr (os.getLast hne)))
    ∧ (∀ (pre post : List FetchOutcome) (o : FetchOutcome) (v : ℕ),
        os = pre ++ o :: post → (∀ p ∈ pre, (attemptBase p).isOk = false) →
        attemptBase o = Except.ok v → kalshi_get os = Except.ok v) := by
  refine ⟨⟨?_, ?_⟩, ?_, ?_⟩
  · intro hfail
    by_contra hnall
    push_neg at hnall
    obtain ⟨o, ho, hok⟩ := hnall
    have hok2 : (attemptBase o).isOk = true := by
      cases hh : (attemptBase o).isOk with
      | false => exact absurd hh hok
      | true => rfl
    obtain ⟨v, hv⟩ := kalshiGetAux_ok_of_exists os ⟨o, ho, hok2⟩ none
    rw [kalshi_get, hv] at hfail
    exact Bool.noConfusion hfail
  · intro hall
    cases os with
    | nil => exact absurd rfl hne
    | cons a t =>
      rw [kalshi_get, kalshiGetAux_all_fail none a t hall]
      rfl
  · intro hall
    cases os with
    | nil => exact absurd rfl hne
    | cons a t =>
      exact kalshiGetAux_all_fail none a t hall
  · intro pre post o v heq hpre ho
    rw [heq, kalshi_get]
    exact kalshiGetAux_first_ok none pre post o v hpre ho

/-- Witness for C4: with two bases, the first answering 200 with a
non-JSON Content-Type and the second hitting a transport error, kalshi_get
raises the second base's transport error — the last one encountered. -/
theorem c4_kalshi_get_fallback_witness :
    kalshi_get [FetchOutcome.response 200 false 0, FetchOutcome.transportError 7]
      = Except.error (some (FetchErr.transport 7)) := by
  have h := (c4_kalshi_get_fallback
    [FetchOutcome.response 200 false 0, FetchOutcome.transportError 7]
    (by decide)).2.1 (by decide)
  simpa [attemptErr, attemptBase, List.getLast] using h

/-- C6: after every write, bot.py's record keeps only samples whose
timestamps lie within the 72-hour retention window measured from the time
of the write; vol_feature.py's record instead caps the series at 500
samples, dropping oldest first (the result is a tail of the appended
series); and every from/to price reported by a delta query is the price of
a sample present in the stored series, so a sample dropped by trimming is
never reported by any later query over the trimmed store. -/
theorem c6_history_trimming :
    (∀ (arr : List Sample) (now : ℤ) (y : ℚ),
        ∀ r ∈ record_price arr now (some y), now - 72 * 3600 ≤ r.ts)
    ∧ (∀ (series : List Sample) (now : ℤ) (tsArg : Option ℤ) (y : ℚ),
        (record_snapshot series now tsArg (some y)).length ≤ 500
        ∧ ∃ k, record_snapshot series now tsArg (some y)
            = (series ++ [(⟨resolveTs tsArg now, y⟩ : Sample)]).drop k)
    ∧ (∀ (series : List Sample) (now minutes d frm tto w : ℤ),
        delta_over_minutes series now minutes = some (d, frm, tto, w) →
        (∃ p ∈ series, frm = pyRound (p.yes * 100))
        ∧ ∃ p ∈ series, tto = pyRound (p.yes * 100)) := by
  refine ⟨?_, ?_, ?_⟩
  · intro arr now y r hr
    unfold record_price at hr
    have h2 := (List.mem_filter.mp hr).2
    simpa using h2
  · intro series now tsArg y
    constructor
    · unfold record_snapshot
      rw [List.length_drop]
      omega
    · exact ⟨_, rfl⟩
  · intro series now minutes d frm tto w h
    cases series with
    | nil => cases h
    | cons s0 rest =>
      have hlastmem : rest.getLastD s0 ∈ s0 :: rest := List.getLastD_mem_cons rest s0
      unfold delta_over_minutes at h
      cases hf : List.filter
          (fun p => decide (p.ts ≤ now) && decide (now - minutes * 60 ≤ p.ts)) (s0 :: rest) with
      | nil =>
        simp only [hf] at h
        simp only [Option.some.injEq, Prod.mk.injEq] at h
        obtain ⟨hd, hfrm, hto, hw⟩ := h
        exact ⟨⟨s0, List.mem_cons_self s0 rest, hfrm.symm⟩,
               ⟨rest.getLastD s0, hlastmem, hto.symm⟩⟩
      | cons f fs =>
        have hfmem : f ∈ s0 :: rest := by
          have : f ∈ List.filter
              (fun p => decide (p.ts ≤ now) && decide (now - minutes * 60 ≤ p.ts))
              (s0 :: rest) := by
            rw [hf]; exact List.mem_cons_self f fs
          exact (List.mem_filter.mp this).1
        simp only [hf] at h
        simp only [Option.some.injEq, Prod.mk.injEq] at h
        obtain ⟨hd, hfrm, hto, hw⟩ := h
        exact ⟨⟨f, hfmem, hfrm.symm⟩, ⟨rest.getLastD s0, hlastmem, hto.symm⟩⟩

/-- Witness for C6 at concrete stores: a fresh write trims the 83-hour-old
sample and the retained sample sits inside the window; the capped store
stays at or below 500 samples; and a concrete delta query only reports
prices of stored samples. -/
theorem c6_history_trimming_witness :
    ((300000 : ℤ) - 72 * 3600 ≤ ((⟨300000, (1 : ℚ)/4⟩ : Sample)).ts)
    ∧ ((record_snapshot [⟨0, 1/2⟩] 300000 none (some (1/4))).length ≤ 500)
    ∧ (50 : ℤ) = pyRound (((⟨5, (1 : ℚ)/2⟩ : Sample)).yes * 100) := by
  refine ⟨?_, (c6_history_trimming.2.1 [⟨0, 1/2⟩] 300000 none (1/4)).1, ?_⟩
  · apply c6_history_trimming.1 [⟨0, 1/2⟩] 300000 (1/4)
    have hrp : record_price [⟨0, 1/2⟩] 300000 (some (1/4))
        = [(⟨300000, (1 : ℚ)/4⟩ : Sample)] := by
      norm_num [record_price, List.filter]
    rw [hrp]
    exact List.mem_cons_self _ _
  · have hd : delta_over_minutes [(⟨5, (1 : ℚ)/2⟩ : Sample)] 1000 3 = some (0, 50, 50, 1) := by
      norm_num [delta_over_minutes, pyRound, List.filter, List.getLastD]
    obtain ⟨⟨p, hp, hv⟩, _⟩ := c6_history_trimming.2.2 [⟨5, (1 : ℚ)/2⟩] 1000 3 0 50 50 1 hd
    have hps : p = (⟨5, (1 : ℚ)/2⟩ : Sample) := by simpa using hp
    rw [← hps]
    exact hv

/-- Dict lookup at the head's own key. -/
theorem dictGet_cons_self {α : Type} (k : String) (v : α) (m : List (String × α)) :
    dictGet ((k, v) :: m) k = some v := by
  unfold dictGet
  simp [List.find?_cons]

/-- Dict lookup skips a head with a different key. -/
theorem dictGet_cons_ne {α : Type} (k k2 : String) (v : α) (m : List (String × α))
    (h : k2 ≠ k) : dictGet ((k2, v) :: m) k = dictGet m k := by
  unfold dictGet
  simp [List.find?_cons, h]

/-- The alert sweep never changes an entry's ticker. -/
theorem sweepEntry_fst (price : String → Option ℚ) (e : String × Option ℚ) :
    ((sweepEntry price e).1).1 = e.1 := by
  unfold sweepEntry
  rcases price e.1 with _ | y
  · rfl
  · rcases e.2 with _ | t
    · rfl
    · dsimp only
      split <;> rfl

/-- One sweep preserves the watchlist's tickers, in order. -/
theorem sweep_keys (price : String → Option ℚ) (w : List (String × Option ℚ)) :
    ((sweepWatches price w).1).map Prod.fst = w.map Prod.fst := by
  induction w with
  | nil => rfl
  | cons e rest ih =>
    show ((sweepEntry price e).1 :: (sweepWatches price rest).1).map Prod.fst = _
    simp [sweepEntry_fst, ih]

/-- Every ticker notified during a sweep is a watched ticker. -/
theorem sweep_notif_subset (price : String → Option ℚ) (w : List (String × Option ℚ))
    (t : String) (h : t ∈ (sweepWatches price w).2) : t ∈ w.map Prod.fst := by
  induction w with
  | nil => cases h
  | cons e rest ih =>
    have h2 : t ∈ (if (sweepEntry price e).2 then [e.1] else [])
        ++ (sweepWatches price rest).2 := h
    rcases List.mem_append.mp h2 with h3 | h3
    · have ht : t = e.1 := by
        by_cases hb : (sweepEntry price e).2
        · rw [if_pos hb] at h3; simpa using h3
        · rw [if_neg hb] at h3; cases h3
      rw [ht]
      exact List.mem_cons_self _ _
    · exact List.mem_cons_of_mem _ (ih h3)

/-- A sweep that sees a price at or below an armed watch's threshold
notifies that watch exactly once. -/
theorem sweep_notif_count (price : String → Option ℚ) (w : List (String × Option ℚ))
    (t : String) (th y : ℚ) (hnd : (w.map Prod.fst).Nodup)
    (hmem : (t, some th) ∈ w) (hp : price t = some y) (hle : y ≤ th) :
    (sweepWatches price w).2.count t = 1 := by
  induction w with
  | nil => cases hmem
  | cons e rest ih =>
    rw [List.map_cons, List.nodup_cons] at hnd
    rcases List.mem_cons.mp hmem with heq | hmem2
    · have hse : sweepEntry price e = ((t, none), true) := by
        rw [← heq]
        unfold sweepEntry
        simp [hp, hle]
      have hnotin : t ∉ (sweepWatches price rest).2 := by
        intro hmm
        have := sweep_notif_subset price rest t hmm
        rw [← heq] at hnd
        exact hnd.1 this
      show ((if (sweepEntry price e).2 then [e.1] else [])
          ++ (sweepWatches price rest).2).count t = 1
      rw [hse, ← heq]
      simp [List.count_cons, List.count_eq_zero.mpr hnotin]
    · have hne : e.1 ≠ t := by
        intro hh
        apply hnd.1
        rw [hh]
        have := List.mem_map_of_mem Prod.fst hmem2
        simpa using this
      have hcount := ih hnd.2 hmem2
      show ((if (sweepEntry price e).2 then [e.1] else [])
          ++ (sweepWatches price rest).2).count t = 1
      by_cases hb : (sweepEntry price e).2
      · rw [if_pos hb]
        simp [List.count_cons, hne, hcount]
      · rw [if_neg hb]
        simpa using hcount

/-- A sweep that fires an armed watch writes None over its threshold. -/
theorem sweep_dictGet_none (price : String → Option ℚ) (w : List (String × Option ℚ))
    (t : String) (th y : ℚ) (hnd : (w.map Prod.fst).Nodup)
    (hmem : (t, some th) ∈ w) (hp : price t = some y) (hle : y ≤ th) :
    dictGet (sweepWatches price w).1 t = some none := by
  induction w with
  | nil => cases hmem
  | cons e rest ih =>
    rw [List.map_cons, List.nodup_cons] at hnd
    rcases List.mem_cons.mp hmem with heq | hmem2
    · have hse : sweepEntry price e = ((t, none), true) := by
        rw [← heq]
        unfold sweepEntry
        simp [hp, hle]
      show dictGet ((sweepEntry price e).1 :: (sweepWatches price rest).1) t = some none
      rw [hse]
      exact dictGet_cons_self t none _
    · have hne : e.1 ≠ t := by
        intro hh
        apply hnd.1
        rw [hh]
        have := List.mem_map_of_mem Prod.fst hmem2
        simpa using this
      show dictGet ((sweepEntry price e).1 :: (sweepWatches price rest).1) t = some none
      rw [dictGet_cons_ne t ((sweepEntry price e).1.1) ((sweepEntry price e).1.2) _
        (by rw [sweepEntry_fst]; exact hne)]
      exact ih hnd.2 hmem2

/-- A watch whose stored threshold is None survives a sweep unchanged and
is never notified by it. -/
theorem sweep_preserves_none (price : String → Option ℚ) (w : List (String × Option ℚ))
    (t : String) (hnd : (w.map Prod.fst).Nodup) (hget : dictGet w t = some none) :
    dictGet (sweepWatches price w).1 t = some none ∧ t ∉ (sweepWatches price w).2 := by
  induction w with
  | nil => simp [dictGet] at hget
  | cons e rest ih =>
    rw [List.map_cons, List.nodup_cons] at hnd
    by_cases he : e.1 = t
    · have hv : e.2 = none := by
        have h1 : dictGet (e :: rest) t = some e.2 := by
          unfold dictGet
          simp [List.find?_cons, he]
        rw [h1] at hget
        exact Option.some.inj hget
      have hse : sweepEntry price e = (e, false) := by
        unfold sweepEntry
        cases hpp : price e.1 <;> simp [hpp, hv]
      constructor
      · show dictGet ((sweepEntry price e).1 :: (sweepWatches price rest).1) t = some none
        rw [hse]
        unfold dictGet
        simp [List.find?_cons, he, hv]
      · intro hmm
        have hmm2 : t ∈ (if (sweepEntry price e).2 then [e.1] else [])
            ++ (sweepWatches price rest).2 := hmm
        rw [hse] at hmm2
        simp only [if_neg Bool.false_ne_true, List.nil_append] at hmm2
        exact hnd.1 (he ▸ sweep_notif_subset price rest t hmm2)
    · have hget2 : dictGet rest t = some none := by
        have h1 : dictGet (e :: rest) t = dictGet rest t := by
          unfold dictGet
          simp [List.find?_cons, he]
        rw [← h1]
        exact hget
      obtain ⟨ih1, ih2⟩ := ih hnd.2 hget2
      constructor
      · show dictGet ((sweepEntry price e).1 :: (sweepWatches price rest).1) t = some none
        rw [dictGet_cons_ne t ((sweepEntry price e).1.1) ((sweepEntry price e).1.2) _
          (by rw [sweepEntry_fst]; exact he)]
        exact ih1
      · intro hmm
        have hmm2 : t ∈ (if (sweepEntry price e).2 then [e.1] else [])
            ++ (sweepWatches price rest).2 := hmm
        rcases List.mem_append.mp hmm2 with h3 | h3
        · by_cases hb : (sweepEntry price e).2
          · rw [if_pos hb] at h3
            simp at h3
            exact he h3.symm
          · rw [if_neg hb] at h3
            cases h3
        · exact ih2 h3

/-- Once a watch's stored threshold is None, no number of further sweeps,
whatever prices they observe, ever notifies that ticker again. -/
theorem sweepMany_no_renotify (oracles : List (String → Option ℚ))
    (w : List (String × Option ℚ)) (t : String)
    (hnd : (w.map Prod.fst).Nodup) (hget : dictGet w t = some none) :
    t ∉ sweepMany oracles w := by
  induction oracles generalizing w with
  | nil => intro h; cases h
  | cons p ps ih =>
    intro hmm
    have hmm2 : t ∈ (sweepWatches p w).2 ++ sweepMany ps (sweepWatches p w).1 := hmm
    obtain ⟨h1, h2⟩ := sweep_preserves_none p w t hnd hget
    rcases List.mem_append.mp hmm2 with h3 | h3
    · exact h2 h3
    · have hnd2 : (((sweepWatches p w).1).map Prod.fst).Nodup := by
        rw [sweep_keys]
        exact hnd
      exact ih (sweepWatches p w).1 hnd2 h1 h3

/-- C2: when a sweep resolves a price at or below an armed watch's
threshold it notifies that watch exactly once and stores None over the
threshold, and from then on no further sweep — whatever prices it
observes — notifies that ticker again until a new threshold is stored. -/
theorem c2_one_shot_alert (price : String → Option ℚ) (w : List (String × Option ℚ))
    (t : String) (th y : ℚ) (hnd : (w.map Prod.fst).Nodup) (hmem : (t, some th) ∈ w)
    (hp : price t = some y) (hle : y ≤ th) :
    (sweepWatches price w).2.count t = 1
    ∧ dictGet (sweepWatches price w).1 t = some none
    ∧ ∀ oracles : List (String → Option ℚ),
        t ∉ sweepMany oracles (sweepWatches price w).1 := by
  refine ⟨sweep_notif_count price w t th y hnd hmem hp hle,
          sweep_dictGet_none price w t th y hnd hmem hp hle, ?_⟩
  intro oracles
  have hnd2 : (((sweepWatches price w).1).map Prod.fst).Nodup := by
    rw [sweep_keys]
    exact hnd
  exact sweepMany_no_renotify oracles _ t hnd2
    (sweep_dictGet_none price w t th y hnd hmem hp hle)

/-- Witness for C2: a watch on "A" armed at 0.35 seeing price 0.30 fires
once, stores None, and an immediate second sweep at an even lower price
does not notify again. -/
theorem c2_one_shot_alert_witness :
    (sweepWatches (fun s => if s = "A" then some ((3 : ℚ)/10) else none)
        [("A", some ((7 : ℚ)/20))]).2.count "A" = 1
    ∧ dictGet (sweepWatches (fun s => if s = "A" then some ((3 : ℚ)/10) else none)
        [("A", some ((7 : ℚ)/20))]).1 "A" = some none
    ∧ "A" ∉ sweepMany [fun _ => some ((1 : ℚ)/100)]
        (sweepWatches (fun s => if s = "A" then some ((3 : ℚ)/10) else none)
          [("A", some ((7 : ℚ)/20))]).1 := by
  have h := c2_one_shot_alert (fun s => if s = "A" then some ((3 : ℚ)/10) else none)
    [("A", some ((7 : ℚ)/20))] "A" ((7 : ℚ)/20) ((3 : ℚ)/10)
    (by simp) (by simp) (by simp) (by norm_num)
  exact ⟨h.1, h.2.1, h.2.2 [fun _ => some ((1 : ℚ)/100)]⟩

/-- Updating an existing key in place stores the new value at that key. -/
theorem dictGet_map_set {α : Type} (m : List (String × α)) (k : String) (v : α)
    (h : ∃ p ∈ m, p.1 = k) :
    dictGet (m.map (fun p => if p.1 = k then (k, v) else p)) k = some v := by
  induction m with
  | nil => obtain ⟨p, hp, _⟩ := h; cases hp
  | cons e rest ih =>
    by_cases he : e.1 = k
    · show dictGet ((if e.1 = k then (k, v) else e) :: _) k = some v
      rw [if_pos he]
      exact dictGet_cons_self k v _
    · show dictGet ((if e.1 = k then (k, v) else e) :: _) k = some v
      rw [if_neg he]
      have h2 : ∃ p ∈ rest, p.1 = k := by
        obtain ⟨p, hp, hpk⟩ := h
        rcases List.mem_cons.mp hp with rfl | hmem
        · exact absurd hpk he
        · exact ⟨p, hmem, hpk⟩
      exact (dictGet_cons_ne k e.1 e.2 _ he).trans (ih h2)

/-- Appending a key at the end of a dict without that key makes it
findable. -/
theorem dictGet_append_right {α : Type} (m : List (String × α)) (k : String) (v : α)
    (h : ∀ p ∈ m, p.1 ≠ k) :
    dictGet (m ++ [(k, v)]) k = some v := by
  induction m with
  | nil => exact dictGet_cons_self k v []
  | cons e rest ih =>
    have he := h e (List.mem_cons_self e rest)
    exact (dictGet_cons_ne k e.1 e.2 (rest ++ [(k, v)]) he).trans
      (ih fun p hp => h p (List.mem_cons_of_mem e hp))

/-- After d[k] = v, looking up k yields v. -/
theorem dictGet_dictSet_self {α : Type} (m : List (String × α)) (k : String) (v : α) :
    dictGet (dictSet m k v) k = some v := by
  unfold dictSet
  by_cases h : m.any (fun p => decide (p.1 = k)) = true
  · rw [if_pos h]
    apply dictGet_map_set
    obtain ⟨p, hp, hpk⟩ := List.any_eq_true.mp h
    exact ⟨p, hp, of_decide_eq_true hpk⟩
  · rw [if_neg h]
    apply dictGet_append_right
    intro p hp hpk
    exact h (List.any_eq_true.mpr ⟨p, hp, decide_eq_true hpk⟩)

/-- After d[k] = v, the pair (k, v) is among the entries. -/
theorem mem_dictSet_self {α : Type} (m : List (String × α)) (k : String) (v : α) :
    (k, v) ∈ dictSet m k v := by
  unfold dictSet
  by_cases h : m.any (fun p => decide (p.1 = k)) = true
  · rw [if_pos h]
    obtain ⟨p, hp, hpk⟩ := List.any_eq_true.mp h
    have hpk2 := of_decide_eq_true hpk
    have h3 := List.mem_map_of_mem (fun p => if p.1 = k then (k, v) else p) hp
    simpa [hpk2] using h3
  · rw [if_neg h]
    exact List.mem_append.mpr (Or.inr (List.mem_cons_self _ _))

/-- After popping a key, the key's entries are gone from the key list. -/
theorem not_mem_keys_filter {α : Type} (m : List (String × α)) (k : String) :
    k ∉ (m.filter (fun p => decide (¬ p.1 = k))).map Prod.fst := by
  intro h
  obtain ⟨p, hp, hpk⟩ := List.mem_map.mp h
  exact (of_decide_eq_true (List.mem_filter.mp hp).2) hpk

/-- A key outside the key list is not found. -/
theorem dictGet_eq_none_of_not_mem {α : Type} (m : List (String × α)) (k : String)
    (h : k ∉ m.map Prod.fst) : dictGet m k = none := by
  unfold dictGet
  cases hfind : m.find? (fun p => decide (p.1 = k)) with
  | none => rfl
  | some e =>
    have h2 := List.mem_of_find?_eq_some hfind
    have h1 := List.find?_some hfind
    simp only [decide_eq_true_eq] at h1
    exact absurd (h1 ▸ List.mem_map_of_mem Prod.fst h2) h

/-- The watchlist visible after a watch command is the guild's previous
watchlist with the ticker's threshold upserted. -/
theorem set_watch_spec (ws : Watches) (gid tick : String) (thr : Option ℚ) :
    list_watches (set_watch ws gid tick thr) gid
      = dictSet ((dictGet ws gid).getD []) tick thr := by
  show (dictGet (dictSet ws gid (dictSet ((dictGet ws gid).getD []) tick thr)) gid).getD []
      = dictSet ((dictGet ws gid).getD []) tick thr
  rw [dictGet_dictSet_self]
  rfl

/-- An unwatch command reports whether the ticker was present and leaves
the guild's watchlist with every entry for that ticker removed. -/
theorem remove_watch_spec (ws : Watches) (gid tick : String) :
    (remove_watch ws gid tick).1 = (dictGet ((dictGet ws gid).getD []) tick).isSome
    ∧ list_watches (remove_watch ws gid tick).2 gid
      = ((dictGet ws gid).getD []).filter (fun p => decide (¬ p.1 = tick)) := by
  constructor
  · rfl
  · show (dictGet (dictSet ws gid
        (((dictGet ws gid).getD []).filter (fun p => decide (¬ p.1 = tick)))) gid).getD []
      = ((dictGet ws gid).getD []).filter (fun p => decide (¬ p.1 = tick))
    rw [dictGet_dictSet_self]
    rfl

/-- C8: in any starting store and community, watching "ABC" at 0.35 makes
list_watches contain ("ABC", 0.35); unwatching "ABC" then reports true and
the next list_watches omits "ABC"; and unwatching a ticker that is not
listed reports false. -/
theorem c8_watchlist_roundtrip (ws : Watches) (c : String) :
    ("ABC", some ((7 : ℚ)/20)) ∈ list_watches (set_watch ws c "ABC" (some ((7 : ℚ)/20))) c
    ∧ (remove_watch (set_watch ws c "ABC" (some ((7 : ℚ)/20))) c "ABC").1 = true
    ∧ "ABC" ∉ (list_watches
        (remove_watch (set_watch ws c "ABC" (some ((7 : ℚ)/20))) c "ABC").2 c).map Prod.fst
    ∧ ∀ (ws2 : Watches) (c2 t2 : String),
        t2 ∉ (list_watches ws2 c2).map Prod.fst → (remove_watch ws2 c2 t2).1 = false := by
  refine ⟨?_, ?_, ?_, ?_⟩
  · rw [set_watch_spec]
    exact mem_dictSet_self _ _ _
  · rw [(remove_watch_spec _ _ _).1]
    have hs := set_watch_spec ws c "ABC" (some ((7 : ℚ)/20))
    unfold list_watches at hs
    rw [hs, dictGet_dictSet_self]
    rfl
  · rw [(remove_watch_spec _ _ _).2]
    exact not_mem_keys_filter _ _
  · intro ws2 c2 t2 h
    rw [(remove_watch_spec _ _ _).1]
    unfold list_watches at h
    rw [dictGet_eq_none_of_not_mem _ _ h]
    rfl

/-- Witness for C8 at the empty store and community "G1", with the absent
case exercised on ticker "ZZZ". -/
theorem c8_watchlist_roundtrip_witness :
    ("ABC", some ((7 : ℚ)/20)) ∈ list_watches (set_watch [] "G1" "ABC" (some ((7 : ℚ)/20))) "G1"
    ∧ (remove_watch (set_watch [] "G1" "ABC" (some ((7 : ℚ)/20))) "G1" "ABC").1 = true
    ∧ (remove_watch [] "G1" "ZZZ").1 = false := by
  have h := c8_watchlist_roundtrip [] "G1"
  exact ⟨h.1, h.2.1, h.2.2.2 [] "G1" "ZZZ" (by simp [list_watches, dictGet])⟩

/-- C10: when no token of the input matches the ticker pattern, the watch
and unwatch commands key the entry by the whole input uppercased and
stripped; and since both commands compute the same key from the same raw
input, a watch followed by an unwatch of the same input always succeeds in
removing the entry just created, whatever the input was. -/
theorem c10_freetext_normalization :
    (∀ t : String, extract_ticker t = none → watch_key t = pyStrip (pyUpper t))
    ∧ ∀ (ws : Watches) (gid raw : String) (thr : Option ℚ),
        (watch_key raw, thr) ∈ list_watches (set_watch ws gid (watch_key raw) thr) gid
        ∧ (remove_watch (set_watch ws gid (watch_key raw) thr) gid (watch_key raw)).1 = true
        ∧ watch_key raw ∉ (list_watches
            (remove_watch (set_watch ws gid (watch_key raw) thr) gid (watch_key raw)).2
            gid).map Prod.fst := by
  constructor
  · intro t h
    unfold watch_key
    rw [h]
    rfl
  · intro ws gid raw thr
    refine ⟨?_, ?_, ?_⟩
    · rw [set_watch_spec]
      exact mem_dictSet_self _ _ _
    · rw [(remove_watch_spec _ _ _).1]
      have hs := set_watch_spec ws gid (watch_key raw) thr
      unfold list_watches at hs
      rw [hs, dictGet_dictSet_self]
      rfl
    · rw [(remove_watch_spec _ _ _).2]
      exact not_mem_keys_filter _ _

/-- Witness for C10 on the free-text input "hello world", which matches no
ticker pattern: the key falls back to "HELLO WORLD" and the
watch-then-unwatch round trip removes the entry. -/
theorem c10_freetext_normalization_witness :
    watch_key "hello world" = pyStrip (pyUpper "hello world")
    ∧ (remove_watch (set_watch [] "1" (watch_key "hello world") none) "1"
        (watch_key "hello world")).1 = true := by
  refine ⟨c10_freetext_normalization.1 "hello world" ?_,
    (c10_freetext_normalization.2 [] "1" "hello world" none).2.1⟩
  rfl

/-- Joining one more line appends a separator (when the chunk was
nonempty) and the line. -/
theorem joinSep_snoc (sep : List Char) (chunk : List (List Char)) (line : List Char) :
    joinSep sep (chunk ++ [line])
      = joinSep sep chunk ++ (if chunk.isEmpty then [] else sep) ++ line := by
  induction chunk with
  | nil => simp [joinSep]
  | cons a t ih =>
    cases t with
    | nil => simp [joinSep]
    | cons b t2 =>
      show a ++ sep ++ joinSep sep ((b :: t2) ++ [line]) = _
      rw [ih]
      simp [joinSep, List.append_assoc]

/-- Unfolding of the chunking loop on an exhausted input. -/
theorem chunkAux_nil (maxChars : ℕ) (sep : List Char) (chunk : List (List Char)) (len : ℕ) :
    chunkAux maxChars sep [] chunk len = if chunk.isEmpty then [] else [chunk] := rfl

/-- Unfolding of the chunking loop on one more entry line. -/
theorem chunkAux_cons (maxChars : ℕ) (sep line : List Char)
    (rest chunk : List (List Char)) (len : ℕ) :
    chunkAux maxChars sep (line :: rest) chunk len =
      if maxChars < len + ((if chunk.isEmpty then [] else sep) ++ line).length then
        (if chunk.isEmpty then ([] : List (List (List Char))) else [chunk]) ++
          chunkAux maxChars sep rest [line] line.length
      else chunkAux maxChars sep rest (chunk ++ [line])
        (len + ((if chunk.isEmpty then [] else sep) ++ line).length) := rfl


/-- The chunks yielded by the chunking loop carry every entry line exactly
once, in order, preceded by whatever chunk was being accumulated. -/
theorem chunkAux_flatten (maxChars : ℕ) (sep : List Char) :
    ∀ (lines chunk : List (List Char)) (len : ℕ),
    (chunkAux maxChars sep lines chunk len).flatten = chunk ++ lines := by
  intro lines
  induction lines with
  | nil =>
    intro chunk len
    rw [chunkAux_nil]
    by_cases he : chunk.isEmpty = true
    · have hc : chunk = [] := by simpa using he
      subst hc
      simp
    · have hc : chunk.isEmpty = false := by simpa using he
      simp [hc]
  | cons line rest ih =>
    intro chunk len
    rw [chunkAux_cons]
    by_cases he : chunk.isEmpty = true
    · have hc : chunk = [] := by simpa using he
      subst hc
      by_cases hlt : maxChars < len + line.length
      · simp [hlt, ih]
      · simp [hlt, ih]
    · have hc : chunk.isEmpty = false := by simpa using he
      by_cases hlt : maxChars < len + (sep.length + line.length)
      · simp [hc, hlt, ih]
      · simp [hc, hlt, ih]

/-- Every chunk yielded by the chunking loop holds at least one entry. -/
theorem chunkAux_ne_nil (maxChars : ℕ) (sep : List Char) :
    ∀ (lines chunk : List (List Char)) (len : ℕ) (g : List (List Char)),
    g ∈ chunkAux maxChars sep lines chunk len → g ≠ [] := by
  intro lines
  induction lines with
  | nil =>
    intro chunk len g hg
    rw [chunkAux_nil] at hg
    by_cases he : chunk.isEmpty = true
    · simp [he] at hg
    · have hc : chunk.isEmpty = false := by simpa using he
      simp [hc] at hg
      subst hg
      simpa using he
  | cons line rest ih =>
    intro chunk len g hg
    rw [chunkAux_cons] at hg
    by_cases he : chunk.isEmpty = true
    · have hc : chunk = [] := by simpa using he
      subst hc
      by_cases hlt : maxChars < len + line.length
      · simp [hlt] at hg
        exact ih _ _ g hg
      · simp [hlt] at hg
        exact ih _ _ g hg
    · have hc : chunk.isEmpty = false := by simpa using he
      by_cases hlt : maxChars < len + (sep.length + line.length)
      · simp [hc, hlt] at hg
        rcases hg with rfl | h1
        · simpa using he
        · exact ih _ _ g h1
      · simp [hc, hlt] at hg
        exact ih _ _ g hg

/-- When every entry line fits inside the ceiling, every chunk yielded by
the loop joins to a message within the ceiling. -/
theorem chunkAux_length_le (maxChars : ℕ) (sep : List Char) :
    ∀ (lines chunk : List (List Char)) (len : ℕ),
    (∀ l ∈ lines, l.length ≤ maxChars) →
    (joinSep sep chunk).length = len → len ≤ maxChars →
    ∀ g ∈ chunkAux maxChars sep lines chunk len,
      (joinSep sep g).length ≤ maxChars := by
  intro lines
  induction lines with
  | nil =>
    intro chunk len hlines hjoin hlen g hg
    rw [chunkAux_nil] at hg
    by_cases he : chunk.isEmpty = true
    · simp [he] at hg
    · have hc : chunk.isEmpty = false := by simpa using he
      simp [hc] at hg
      subst hg
      rw [hjoin]
      exact hlen
  | cons line rest ih =>
    intro chunk len hlines hjoin hlen g hg
    have hline : line.length ≤ maxChars := hlines line (List.mem_cons_self _ _)
    have hrest : ∀ l ∈ rest, l.length ≤ maxChars :=
      fun l hl => hlines l (List.mem_cons_of_mem _ hl)
    rw [chunkAux_cons] at hg
    by_cases he : chunk.isEmpty = true
    · have hc : chunk = [] := by simpa using he
      subst hc
      have h0 : len = 0 := by rw [← hjoin]; rfl
      subst h0
      by_cases hlt : maxChars < line.length
      · simp [hlt] at hg
        exact ih [line] line.length hrest rfl hline g hg
      · simp [hlt] at hg
        exact ih [line] line.length hrest rfl hline g hg
    · have hc : chunk.isEmpty = false := by simpa using he
      by_cases hlt : maxChars < len + (sep.length + line.length)
      · simp [hc, hlt] at hg
        rcases hg with rfl | h1
        · rw [hjoin]
          exact hlen
        · exact ih [line] line.length hrest rfl hline g h1
      · simp [hc, hlt] at hg
        refine ih (chunk ++ [line]) (len + (sep.length + line.length)) hrest ?_ ?_ g ?_
        · rw [joinSep_snoc]
          simp only [hc, Bool.false_eq_true, if_false, List.length_append, hjoin]
          omega
        · omega
        · exact hg

set_option maxRecDepth 10000 in
/-- C9 counterexample: a single entry line of 1801 characters is yielded
unsplit as a segment of 1801 characters, exceeding the 1800-character
ceiling the claim asserts for every segment. -/
theorem c9_counterexample :
    chunk_lines [List.replicate 1801 'a'] 1800 ['\x0a', '\x0a'] = [List.replicate 1801 'a']
    ∧ 1800 < (List.replicate 1801 'a').length := by
  constructor
  · rfl
  · rw [List.length_replicate]
    norm_num

/-- C9 (amended): the segments produced by chunk_lines are the sep-joins
of consecutive nonempty groups of the entry lines, with every entry
appearing exactly once in its original order; and provided every entry
line is itself at most 1800 characters, every yielded segment is at most
1800 characters. -/
theorem c9_chunk_lines_amended (lines : List (List Char)) (sep : List Char) :
    (∃ groups : List (List (List Char)),
        chunk_lines lines 1800 sep = groups.map (joinSep sep)
        ∧ groups.flatten = lines
        ∧ ∀ g ∈ groups, g ≠ [])
    ∧ ((∀ l ∈ lines, l.length ≤ 1800) →
        ∀ seg ∈ chunk_lines lines 1800 sep, seg.length ≤ 1800) := by
  constructor
  · refine ⟨chunkAux 1800 sep lines [] 0, rfl, ?_, ?_⟩
    · rw [chunkAux_flatten]
      rfl
    · intro g hg
      exact chunkAux_ne_nil 1800 sep lines [] 0 g hg
  · intro hlines seg hseg
    unfold chunk_lines at hseg
    obtain ⟨g, hg, hjoin⟩ := List.mem_map.mp hseg
    rw [← hjoin]
    exact chunkAux_length_le 1800 sep lines [] 0 hlines rfl (by omega) g hg

/-- Witness for the amended C9 theorem: two short entries joined into the
single segment of "ab", the separator and "cd", which fits the ceiling. -/
theorem c9_chunk_lines_witness :
    (['a', 'b'] ++ ['\x0a', '\x0a'] ++ ['c', 'd']).length ≤ 1800 := by
  have hc : ['a', 'b'] ++ ['\x0a', '\x0a'] ++ ['c', 'd']
      ∈ chunk_lines [['a', 'b'], ['c', 'd']] 1800 ['\x0a', '\x0a'] := by decide
  exact (c9_chunk_lines_amended [['a', 'b'], ['c', 'd']] ['\x0a', '\x0a']).2 (by decide) _ hc
